import Mathlib

/-!
Shallow embedding of the zentags repository (src/main.py): a cycle-guarded
directed graph (`DAG.add_edge`), path-decomposing ingestion of declaration
lines (`FileSystem.__ingest_container_path`, `__parse_line`, `load`),
descendant/leaf queries (`get_leaf_nodes_tagged_by`,
`get_items_immediately_tagged_by`, `get_root_tags`) and the stateful
refinement session (`FileBrowser.add_tag`, `submit_query`).

Python exceptions are modelled by the inductive `Err`; a method that can
raise returns its (possibly partially mutated) state paired with
`Option Err`, mirroring the mutation order of the source.
-/

/-- Python exceptions raised by the source: `ValueError` (the cycle guard in
`DAG.add_edge`), networkx's node-not-found errors (from `nx.descendants` /
`successors` on an absent node), and `IndexError` (from `tags[0]` on an
empty list). -/
inductive Err where
  | valueError (msg : String)
  | nodeNotFound (node : String)
  | indexError (msg : String)

instance : DecidableEq Err := fun a b =>
  match a, b with
  | .valueError x, .valueError y => decidable_of_iff (x = y) (by simp)
  | .nodeNotFound x, .nodeNotFound y => decidable_of_iff (x = y) (by simp)
  | .indexError x, .indexError y => decidable_of_iff (x = y) (by simp)
  | .valueError _, .nodeNotFound _ => .isFalse (fun h => Err.noConfusion h)
  | .valueError _, .indexError _ => .isFalse (fun h => Err.noConfusion h)
  | .nodeNotFound _, .valueError _ => .isFalse (fun h => Err.noConfusion h)
  | .nodeNotFound _, .indexError _ => .isFalse (fun h => Err.noConfusion h)
  | .indexError _, .valueError _ => .isFalse (fun h => Err.noConfusion h)
  | .indexError _, .nodeNotFound _ => .isFalse (fun h => Err.noConfusion h)

/-- The message text a Python exception would display. -/
def errMsg : Err → String
  | .valueError m => m
  | .nodeNotFound n => "The node " ++ n ++ " is not in the graph."
  | .indexError m => m

/-- The state of the `DAG` (an `nx.DiGraph` subclass): a simple directed
graph over string identifiers. -/
structure Graph where
  nodes : Finset String
  edges : Finset (String × String)

instance : DecidableEq Graph := fun a b =>
  decidable_of_iff (a.nodes = b.nodes ∧ a.edges = b.edges)
    (by cases a; cases b; simp)

def emptyG : Graph := ⟨∅, ∅⟩

/-- Well-formedness maintained by networkx: every edge endpoint is a node. -/
def WFg (g : Graph) : Prop := ∀ e ∈ g.edges, e.1 ∈ g.nodes ∧ e.2 ∈ g.nodes

instance (g : Graph) : Decidable (WFg g) :=
  inferInstanceAs (Decidable (∀ e ∈ g.edges, e.1 ∈ g.nodes ∧ e.2 ∈ g.nodes))

/-- `G.successors(u)` as a set: targets of edges out of `u`. -/
def succs (g : Graph) (u : String) : Finset String :=
  (g.edges.filter (fun e => e.1 = u)).image Prod.snd

/-- `G.predecessors(u)` as a set: sources of edges into `u`. -/
def preds (g : Graph) (u : String) : Finset String :=
  (g.edges.filter (fun e => e.2 = u)).image Prod.fst

/-- `G.out_degree(u)` on a simple digraph. -/
def outDegree (g : Graph) (u : String) : Nat := (succs g u).card

/-- `G.in_degree(u)` on a simple digraph. -/
def inDegree (g : Graph) (u : String) : Nat := (preds g u).card

/-- All edge targets; used only to bound the reachability iteration. -/
def reachTargets (g : Graph) : Finset String := g.edges.image Prod.snd

/-- One breadth step of reachability saturation: add every successor of a
current element. -/
def satStep (g : Graph) (S : Finset String) : Finset String :=
  S ∪ (g.edges.filter (fun e => e.1 ∈ S)).image Prod.snd

/-- Iterate `satStep` until a fixpoint (fuel-bounded; the fuel used by
`reachSet` always suffices). -/
def reachAux (g : Graph) : Nat → Finset String → Finset String
  | 0, S => S
  | n + 1, S => if satStep g S = S then S else reachAux g n (satStep g S)

/-- Nodes reachable from `u` by a directed path of length ≥ 0 (the semantics
of `nx.has_path g u -`). -/
def reachSet (g : Graph) (u : String) : Finset String :=
  reachAux g ((reachTargets g).card + 1) {u}

/-- `nx.has_path(g, u, v)`: a directed path (possibly empty) from `u` to
`v`. -/
def reach (g : Graph) (u v : String) : Prop := v ∈ reachSet g u

instance (g : Graph) (u v : String) : Decidable (reach g u v) :=
  inferInstanceAs (Decidable (v ∈ reachSet g u))

/-- The single-edge relation of the graph. -/
def edgeRel (g : Graph) (a b : String) : Prop := (a, b) ∈ g.edges

/-- Directed reachability as a reflexive-transitive closure (the
specification-level counterpart of `reach`). -/
def RTc (g : Graph) : String → String → Prop := Relation.ReflTransGen (edgeRel g)

/-- The graph is acyclic: no edge closes a directed path back to its
source. -/
def Acyclic (g : Graph) : Prop := ∀ a b, (a, b) ∈ g.edges → ¬ RTc g b a

/-- Executable form of `Acyclic` (via the bounded reachability search). -/
def AcyclicB (g : Graph) : Prop := ∀ e ∈ g.edges, ¬ reach g e.2 e.1

instance (g : Graph) : Decidable (AcyclicB g) :=
  inferInstanceAs (Decidable (∀ e ∈ g.edges, ¬ reach g e.2 e.1))

/-- `nx.DiGraph.add_edge`'s unguarded effect: insert both endpoints and the
edge (all idempotent). -/
def addEdgeRaw (g : Graph) (u v : String) : Graph :=
  ⟨insert u (insert v g.nodes), insert (u, v) g.edges⟩

/-- `DAG.add_edge(u, v)`: raise `ValueError` when both endpoints are already
nodes and `v` has an edge or path back to `u`; otherwise defer to the plain
`DiGraph` insertion. On a raise the graph is returned unchanged. -/
def addEdge (g : Graph) (u v : String) : Graph × Option Err :=
  if (u ∈ g.nodes ∧ v ∈ g.nodes) ∧ ((v, u) ∈ g.edges ∨ reach g v u) then
    (g, some (Err.valueError "Adding this edge will create a cycle."))
  else
    (addEdgeRaw g u v, none)

/-- A sequence of `add_edge` calls, stopping at the first raised error (the
Python exception propagates; earlier insertions stay committed). -/
def edgeFold (g : Graph) : List (String × String) → Graph × Option Err
  | [] => (g, none)
  | p :: rest =>
    match addEdge g p.1 p.2 with
    | (g1, none) => edgeFold g1 rest
    | (g1, some e) => (g1, some e)

/-- Python `str.split(sep)` on a character list: keeps empty fields, and the
split of the empty string is `[[]]`. -/
def splitChar (sep : Char) : List Char → List (List Char)
  | [] => [[]]
  | c :: cs =>
    if c = sep then [] :: splitChar sep cs
    else
      match splitChar sep cs with
      | [] => [[c]]
      | h :: t => (c :: h) :: t

/-- Python `str.split(sep)` with an explicit single-character separator. -/
def pySplit (sep : Char) (s : String) : List String :=
  (splitChar sep s.data).map String.mk

/-- Python's whitespace set for `str.strip()`. -/
def pyWS (c : Char) : Bool :=
  c = ' ' || c = '\t' || c = '\n' || c = '\r' || c = '\x0b' || c = '\x0c'

/-- Python `str.strip()`: drop leading and trailing whitespace. -/
def pyStrip (s : String) : String :=
  String.mk (((s.data.dropWhile pyWS).reverse.dropWhile pyWS).reverse)

/-- Python `str.startswith(p)`. -/
def pyStartsWith (s p : String) : Bool := p.data.isPrefixOf s.data

/-- `itertools.accumulate(path.split("/"), lambda x, y: f"{x}/{y}")`: the
list of successive `/`-prefixes of an identifier. -/
def accPrefixes (path : String) : List String :=
  match pySplit '/' path with
  | [] => []
  | h :: t => t.scanl (fun x y => x ++ "/" ++ y) h

/-- The consecutive pairs of a list (each element with its successor). -/
def zipConsec (l : List String) : List (String × String) := l.zip l.tail

/-- The containment edges `__ingest_container_path` attempts for one
identifier, in order. -/
def chainPairs (path : String) : List (String × String) :=
  zipConsec (accPrefixes path)

/-- The loop body of `__ingest_container_path`: walk the accumulated
prefixes keeping `last_container`, adding an edge from each prefix to the
next. -/
def chainLoop (g : Graph) (last : Option String) : List String → Graph × Option Err
  | [] => (g, none)
  | item :: rest =>
    match last with
    | none => chainLoop g (some item) rest
    | some lc =>
      match addEdge g lc item with
      | (g1, none) => chainLoop g1 (some item) rest
      | (g1, some e) => (g1, some e)

/-- `FileSystem.__ingest_container_path(path)`. -/
def ingestContainerPath (g : Graph) (path : String) : Graph × Option Err :=
  chainLoop g none (accPrefixes path)

/-- The per-tag loop of `__parse_line`: ingest the tag's own path, then add
the edge `tag → source`. -/
def tagLoop (g : Graph) (source : String) : List String → Graph × Option Err
  | [] => (g, none)
  | t :: rest =>
    match ingestContainerPath g t with
    | (g1, some e) => (g1, some e)
    | (g1, none) =>
      match addEdge g1 t source with
      | (g2, some e) => (g2, some e)
      | (g2, none) => tagLoop g2 source rest

/-- `FileSystem.__parse_line(line)`: strip, skip comments and blanks, split
on single spaces, ingest the item's path, then each tag's path plus the
`tag → item` edge. -/
def parseLine (g : Graph) (line : String) : Graph × Option Err :=
  let l := pyStrip line
  if pyStartsWith l "#" ∨ l = "" then (g, none)
  else
    let items := pySplit ' ' l
    let source := items.headI
    let tags := items.tail
    match ingestContainerPath g source with
    | (g1, some e) => (g1, some e)
    | (g1, none) => tagLoop g1 source tags

/-- `FileSystem.load`, with the file already read into its list of lines:
parse each line in order; a raised error aborts the remaining lines. -/
def load (g : Graph) : List String → Graph × Option Err
  | [] => (g, none)
  | line :: rest =>
    match parseLine g line with
    | (g1, none) => load g1 rest
    | (g1, some e) => (g1, some e)

/-- The edges a record `(source, tags)` attempts, in order (the abstract
view of `__parse_line` used by the theorems). -/
def recordEdges (source : String) (tags : List String) : List (String × String) :=
  chainPairs source ++ tags.flatMap (fun t => chainPairs t ++ [(t, source)])

/-- The edges one raw line attempts (empty for comments and blank lines). -/
def lineEdges (line : String) : List (String × String) :=
  let l := pyStrip line
  if pyStartsWith l "#" ∨ l = "" then []
  else recordEdges (pySplit ' ' l).headI (pySplit ' ' l).tail

/-- `nx.descendants(g, u)`: everything reachable from `u`, excluding `u`
itself. -/
def descendants (g : Graph) (u : String) : Finset String :=
  (reachSet g u).erase u

/-- The out-degree-zero descendants of one tag: the set comprehension in
`get_leaf_nodes_tagged_by`. -/
def leafD (g : Graph) (t : String) : Finset String :=
  (descendants g t).filter (fun n => outDegree g n = 0)

/-- The intersection loop of `get_leaf_nodes_tagged_by` over `tags[1:]`;
`nx.descendants` raises on the first tag that is not a node. -/
def goLeaf (g : Graph) (acc : Finset String) : List String → Except Err (Finset String)
  | [] => .ok acc
  | t :: rest =>
    if t ∈ g.nodes then goLeaf g (acc ∩ leafD g t) rest
    else .error (.nodeNotFound t)

/-- `FileSystem.get_leaf_nodes_tagged_by(tags)`: `tags[0]` raises
`IndexError` on an empty list; each `nx.descendants(g, tag)` raises when
`tag` is not a node. -/
def getLeafNodesTaggedBy (g : Graph) : List String → Except Err (Finset String)
  | [] => .error (.indexError "list index out of range")
  | t :: rest =>
    if t ∈ g.nodes then goLeaf g (leafD g t) rest
    else .error (.nodeNotFound t)

/-- The intersection loop of `get_items_immediately_tagged_by` over
`tags[1:]`. -/
def goItems (g : Graph) (acc : Finset String) : List String → Except Err (Finset String)
  | [] => .ok acc
  | t :: rest =>
    if t ∈ g.nodes then goItems g (acc ∩ succs g t) rest
    else .error (.nodeNotFound t)

/-- `FileSystem.get_items_immediately_tagged_by(tags)`. -/
def getItemsImmediatelyTaggedBy (g : Graph) : List String → Except Err (Finset String)
  | [] => .error (.indexError "list index out of range")
  | t :: rest =>
    if t ∈ g.nodes then goItems g (succs g t) rest
    else .error (.nodeNotFound t)

/-- `FileSystem.get_root_tags()`: nodes of in-degree zero. -/
def getRootTags (g : Graph) : Finset String :=
  g.nodes.filter (fun n => inDegree g n = 0)

/-- The mutable state of a `FileBrowser` (the RefinementSession). -/
structure Browser where
  applied : Finset String
  useful : Finset String

instance : DecidableEq Browser := fun a b =>
  decidable_of_iff (a.applied = b.applied ∧ a.useful = b.useful)
    (by cases a; cases b; simp)

instance : DecidableEq (Except Err (Finset String)) := fun a b =>
  match a, b with
  | .ok x, .ok y => decidable_of_iff (x = y) (by simp)
  | .error x, .error y => decidable_of_iff (x = y) (by simp)
  | .ok _, .error _ => .isFalse (fun h => Except.noConfusion h)
  | .error _, .ok _ => .isFalse (fun h => Except.noConfusion h)

/-- `FileBrowser.__init__`: no applied tags; the frontier starts as the
root tags. -/
def freshBrowser (g : Graph) : Browser := ⟨∅, getRootTags g⟩

/-- Lexicographic comparison of character lists (structurally recursive so
that the kernel can evaluate it). -/
def listLe : List Char → List Char → Bool
  | [], _ => true
  | _ :: _, [] => false
  | a :: as, b :: bs =>
    if a < b then true else if b < a then false else listLe as bs

/-- A total order on strings used only to list a Python set in a fixed,
kernel-computable order. -/
def strLe (s t : String) : Prop := listLe s.data t.data = true

instance : DecidableRel strLe := fun s t =>
  inferInstanceAs (Decidable (listLe s.data t.data = true))

instance : IsTotal String strLe where
  total := by
    have key : ∀ a b : List Char, listLe a b = true ∨ listLe b a = true := by
      intro a
      induction a with
      | nil => intro b; left; rfl
      | cons x xs ih =>
        intro b
        cases b with
        | nil => right; rfl
        | cons y ys =>
          simp only [listLe]
          by_cases hxy : x < y
          · left; simp [hxy]
          · by_cases hyx : y < x
            · right; simp [hyx, hxy]
            · rcases ih ys with h | h
              · left; simp [hxy, hyx, h]
              · right; simp [hxy, hyx, h]
    intro s t
    exact key s.data t.data

instance : IsTrans String strLe where
  trans := by
    have key : ∀ a b c : List Char,
        listLe a b = true → listLe b c = true → listLe a c = true := by
      intro a
      induction a with
      | nil => intro b c _ _; rfl
      | cons x xs ih =>
        intro b c h1 h2
        cases b with
        | nil => simp [listLe] at h1
        | cons y ys =>
          cases c with
          | nil => simp [listLe] at h2
          | cons z zs =>
            simp only [listLe] at h1 h2 ⊢
            by_cases hxy : x < y
            · by_cases hyz : y < z
              · simp [lt_trans hxy hyz]
              · by_cases hzy : z < y
                · simp [hyz, hzy] at h2
                · have hyz2 : y = z := le_antisymm (le_of_not_lt hzy) (le_of_not_lt hyz)
                  subst hyz2
                  simp [hxy]
            · by_cases hyx : y < x
              · simp [hxy, hyx] at h1
              · have hxy2 : x = y := le_antisymm (le_of_not_lt hyx) (le_of_not_lt hxy)
                subst hxy2
                simp only [lt_irrefl, if_false] at h1
                by_cases hxz : x < z
                · simp [hxz]
                · by_cases hzx : z < x
                  · simp [hxz, hzx] at h2
                  · simp only [hxz, hzx, if_false] at h2 ⊢
                    exact ih ys zs h1 h2
    intro s t u h1 h2
    exact key s.data t.data u.data h1 h2

instance : IsAntisymm String strLe where
  antisymm := by
    have key : ∀ a b : List Char, listLe a b = true → listLe b a = true → a = b := by
      intro a
      induction a with
      | nil =>
        intro b _ h2
        cases b with
        | nil => rfl
        | cons y ys => simp [listLe] at h2
      | cons x xs ih =>
        intro b h1 h2
        cases b with
        | nil => simp [listLe] at h1
        | cons y ys =>
          simp only [listLe] at h1 h2
          by_cases hxy : x < y
          · have hyx : ¬ y < x := fun h => absurd (lt_trans hxy h) (lt_irrefl x)
            simp [hyx, hxy] at h2
          · by_cases hyx : y < x
            · simp [hxy, hyx] at h1
            · have hxy2 : x = y := le_antisymm (le_of_not_lt hyx) (le_of_not_lt hxy)
              subst hxy2
              simp only [lt_irrefl, if_false] at h1 h2
              rw [ih ys h1 h2]
    intro s t h1 h2
    have hd := key s.data t.data h1 h2
    cases s
    cases t
    exact congrArg String.mk hd

/-- A `Finset` of tags listed in a deterministic order (Python iterates its
hash sets in an unspecified order; any order gives the same success value,
so the embedding fixes the sorted one). Insertion sort is used so that the
kernel can evaluate it on concrete inputs. -/
def tagList (s : Finset String) : List String :=
  Quot.liftOn s.val (List.insertionSort strLe) (fun l1 l2 h =>
    List.eq_of_perm_of_sorted
      ((List.perm_insertionSort _ l1).trans ((h : l1.Perm l2).trans
        (List.perm_insertionSort _ l2).symm))
      (List.sorted_insertionSort _ l1) (List.sorted_insertionSort _ l2))

/-- `FileBrowser.submit_query()`: the empty-`applied` convention returns the
empty collection; otherwise query the leaf items of all applied tags. -/
def submitQuery (g : Graph) (b : Browser) : Except Err (Finset String) :=
  if b.applied = ∅ then .ok ∅
  else getLeafNodesTaggedBy g (tagList b.applied)

/-- `get_leaf_nodes_tagged_by` on a tag set (order-irrelevant form used to
state the session properties). -/
def leafSet (g : Graph) (s : Finset String) : Except Err (Finset String) :=
  getLeafNodesTaggedBy g (tagList s)

/-- The candidate filter loop of `add_tag`: keep `c` when the query over
`applied + [c]` is a non-empty subset of the current results; a raised
error aborts the loop (discarding the partially built set). -/
def filterUseful (g : Graph) (appliedL : List String) (fileResults : Finset String) :
    List String → Except Err (Finset String)
  | [] => .ok ∅
  | c :: rest =>
    match getLeafNodesTaggedBy g (appliedL ++ [c]) with
    | .error e => .error e
    | .ok r =>
      match filterUseful g appliedL fileResults rest with
      | .error e => .error e
      | .ok acc => .ok (if r ⊆ fileResults ∧ 0 < r.card then insert c acc else acc)

/-- `FileBrowser.add_tag(tag)`, with the same mutation order as the source:
`applied_tags` gains `tag` first; `submit_query` may then raise (leaving
the grown `applied_tags` behind); then the frontier is expanded with the
tag's immediate children and refiltered. The returned browser is the state
the Python object holds when the call returns or raises. -/
def addTag (g : Graph) (b : Browser) (tag : String) : Browser × Option Err :=
  let applied1 := insert tag b.applied
  match submitQuery g ⟨applied1, b.useful⟩ with
  | .error e => (⟨applied1, b.useful⟩, some e)
  | .ok fileResults =>
    let useful1 := b.useful.erase tag
    match getItemsImmediatelyTaggedBy g [tag] with
    | .error e => (⟨applied1, useful1⟩, some e)
    | .ok children =>
      let useful2 := useful1 ∪ children
      match filterUseful g (tagList applied1) fileResults (tagList useful2) with
      | .error e => (⟨applied1, useful2⟩, some e)
      | .ok useful3 => (⟨applied1, useful3⟩, none)

/-- Browser states reachable from a fresh session by successful `add_tag`
calls. -/
inductive Reachable (g : Graph) : Browser → Prop
  | init : Reachable g (freshBrowser g)
  | step {b b' : Browser} {tag : String} :
      Reachable g b → addTag g b tag = (b', none) → Reachable g b'

theorem subset_satStep (g : Graph) (S : Finset String) : S ⊆ satStep g S :=
  Finset.subset_union_left

theorem mem_satStep {g : Graph} {S : Finset String} {x : String} :
    x ∈ satStep g S ↔ x ∈ S ∨ ∃ a ∈ S, (a, x) ∈ g.edges := by
  simp only [satStep, Finset.mem_union, Finset.mem_image, Finset.mem_filter]
  constructor
  · rintro (h | ⟨⟨a, b⟩, ⟨hab, ha⟩, rfl⟩)
    · exact Or.inl h
    · exact Or.inr ⟨a, ha, hab⟩
  · rintro (h | ⟨a, ha, hab⟩)
    · exact Or.inl h
    · exact Or.inr ⟨(a, x), ⟨hab, ha⟩, rfl⟩

theorem subset_reachAux (g : Graph) : ∀ (n : Nat) (S : Finset String), S ⊆ reachAux g n S := by
  intro n
  induction n with
  | zero => intro S; exact le_refl S
  | succ n ih =>
    intro S
    simp only [reachAux]
    split
    · exact le_refl S
    · exact (subset_satStep g S).trans (ih (satStep g S))

theorem reachAux_sound {g : Graph} {u : String} :
    ∀ (n : Nat) (S : Finset String), (∀ x ∈ S, RTc g u x) →
      ∀ x ∈ reachAux g n S, RTc g u x := by
  intro n
  induction n with
  | zero => intro S h; exact h
  | succ n ih =>
    intro S h
    simp only [reachAux]
    split
    · exact h
    · refine ih (satStep g S) ?_
      intro x hx
      rcases mem_satStep.mp hx with hx | ⟨a, ha, hax⟩
      · exact h x hx
      · exact (h a ha).tail hax

theorem satStep_subset {g : Graph} {S T : Finset String} (hS : S ⊆ T)
    (hT : reachTargets g ⊆ T) : satStep g S ⊆ T := by
  intro x hx
  rcases mem_satStep.mp hx with hx | ⟨a, _, hax⟩
  · exact hS hx
  · exact hT (Finset.mem_image_of_mem Prod.snd hax)

theorem reachAux_fix {g : Graph} {T : Finset String} (hT : reachTargets g ⊆ T) :
    ∀ (n : Nat) (S : Finset String), S ⊆ T → T.card ≤ n + S.card →
      satStep g (reachAux g n S) = reachAux g n S := by
  intro n
  induction n with
  | zero =>
    intro S hS hc
    have hST : S = T := Finset.eq_of_subset_of_card_le hS (by simpa using hc)
    subst hST
    exact Finset.Subset.antisymm (satStep_subset (le_refl S) hT) (subset_satStep g S)
  | succ n ih =>
    intro S hS hc
    simp only [reachAux]
    split
    · assumption
    · rename_i hne
      refine ih (satStep g S) (satStep_subset hS hT) ?_
      have hss : S ⊂ satStep g S := Finset.ssubset_iff_subset_ne.mpr ⟨subset_satStep g S, fun h => hne h.symm⟩
      have : S.card < (satStep g S).card := Finset.card_lt_card hss
      omega

theorem reachSet_fix (g : Graph) (u : String) :
    satStep g (reachSet g u) = reachSet g u := by
  refine reachAux_fix (T := insert u (reachTargets g)) (Finset.subset_insert _ _) _ {u} ?_ ?_
  · simp
  · have := Finset.card_insert_le u (reachTargets g)
    simp only [Finset.card_singleton]
    omega

theorem mem_reachSet_self (g : Graph) (u : String) : u ∈ reachSet g u :=
  subset_reachAux g _ {u} (Finset.mem_singleton_self u)

theorem reachSet_closed {g : Graph} {u x y : String} (hx : x ∈ reachSet g u)
    (hxy : (x, y) ∈ g.edges) : y ∈ reachSet g u := by
  rw [← reachSet_fix g u]
  exact mem_satStep.mpr (Or.inr ⟨x, hx, hxy⟩)

/-- The bounded search `reach` agrees with reflexive-transitive closure. -/
theorem reach_iff {g : Graph} {u v : String} : reach g u v ↔ RTc g u v := by
  constructor
  · intro h
    refine reachAux_sound _ {u} ?_ v h
    intro x hx
    rw [Finset.mem_singleton] at hx
    subst hx
    exact Relation.ReflTransGen.refl
  · intro h
    induction h with
    | refl => exact mem_reachSet_self g u
    | tail _ hedge ih => exact reachSet_closed ih hedge

theorem RT_addRaw {g : Graph} {u v x y : String}
    (h : RTc (addEdgeRaw g u v) x y) :
    RTc g x y ∨ (RTc g x u ∧ RTc (addEdgeRaw g u v) v y) := by
  induction h using Relation.ReflTransGen.head_induction_on with
  | refl => exact Or.inl Relation.ReflTransGen.refl
  | head hstep hrest ih =>
    rename_i a c
    rcases Finset.mem_insert.mp hstep with heq | hmem
    · have ha : a = u := congrArg Prod.fst heq
      have hc : c = v := congrArg Prod.snd heq
      subst ha
      subst hc
      exact Or.inr ⟨Relation.ReflTransGen.refl, hrest⟩
    · rcases ih with hcy | ⟨hcu, hv⟩
      · exact Or.inl (Relation.ReflTransGen.head hmem hcy)
      · exact Or.inr ⟨Relation.ReflTransGen.head hmem hcu, hv⟩

theorem RT_addRaw_from_v {g : Graph} {u v y : String} (hnvu : ¬ RTc g v u)
    (h : RTc (addEdgeRaw g u v) v y) : RTc g v y := by
  rcases RT_addRaw h with h | ⟨hvu, _⟩
  · exact h
  · exact absurd hvu hnvu

theorem RT_addRaw_decomp {g : Graph} {u v x y : String} (hnvu : ¬ RTc g v u)
    (h : RTc (addEdgeRaw g u v) x y) : RTc g x y ∨ (RTc g x u ∧ RTc g v y) := by
  rcases RT_addRaw h with h | ⟨hxu, hvy⟩
  · exact Or.inl h
  · exact Or.inr ⟨hxu, RT_addRaw_from_v hnvu hvy⟩

theorem RT_no_in {g : Graph} {u x : String} (hWF : WFg g) (hu : u ∉ g.nodes)
    (h : RTc g x u) : x = u := by
  rcases Relation.ReflTransGen.cases_tail h with heq | ⟨c, _, hcu⟩
  · exact heq.symm
  · exact absurd (hWF _ hcu).2 hu

theorem RT_addRaw_no_out {g : Graph} {u v y : String} (hWF : WFg g)
    (hv : v ∉ g.nodes) (huv : u ≠ v) (h : RTc (addEdgeRaw g u v) v y) : y = v := by
  rcases Relation.ReflTransGen.cases_head h with heq | ⟨c, hvc, _⟩
  · exact heq.symm
  · rcases Finset.mem_insert.mp hvc with heq2 | hmem
    · exact absurd (congrArg Prod.fst heq2).symm huv
    · exact absurd (hWF _ hmem).1 hv

theorem RT_addRaw_no_in {g : Graph} {u v x : String} (hWF : WFg g)
    (hu : u ∉ g.nodes) (huv : u ≠ v) (h : RTc (addEdgeRaw g u v) x u) : x = u := by
  rcases Relation.ReflTransGen.cases_tail h with heq | ⟨c, _, hcu⟩
  · exact heq.symm
  · rcases Finset.mem_insert.mp hcu with heq2 | hmem
    · exact absurd (congrArg Prod.snd heq2) huv
    · exact absurd (hWF _ hmem).2 hu

theorem addEdge_ok {g : Graph} {u v : String} {g' : Graph}
    (h : addEdge g u v = (g', none)) :
    g' = addEdgeRaw g u v ∧
      ¬((u ∈ g.nodes ∧ v ∈ g.nodes) ∧ ((v, u) ∈ g.edges ∨ reach g v u)) := by
  unfold addEdge at h
  split at h
  · exact absurd (congrArg Prod.snd h) (by simp)
  · rename_i hcond
    exact ⟨(congrArg Prod.fst h).symm, hcond⟩

theorem addEdge_err {g : Graph} {u v : String} {g' : Graph} {e : Err}
    (h : addEdge g u v = (g', some e)) :
    g' = g ∧ e = Err.valueError "Adding this edge will create a cycle." ∧
      (u ∈ g.nodes ∧ v ∈ g.nodes) ∧ ((v, u) ∈ g.edges ∨ reach g v u) := by
  unfold addEdge at h
  split at h
  · rename_i hcond
    have h1 := congrArg Prod.fst h
    have h2 := congrArg Prod.snd h
    simp only [Option.some.injEq] at h2
    exact ⟨h1.symm, h2.symm, hcond⟩
  · exact absurd (congrArg Prod.snd h) (by simp)

theorem WFg_addEdgeRaw {g : Graph} (h : WFg g) (u v : String) :
    WFg (addEdgeRaw g u v) := by
  intro e he
  rcases Finset.mem_insert.mp he with rfl | he
  · exact ⟨Finset.mem_insert_self _ _, Finset.mem_insert_of_mem (Finset.mem_insert_self _ _)⟩
  · have hh := h e he
    exact ⟨Finset.mem_insert_of_mem (Finset.mem_insert_of_mem hh.1),
      Finset.mem_insert_of_mem (Finset.mem_insert_of_mem hh.2)⟩

theorem WFg_addEdge {g : Graph} {u v : String} {g' : Graph} {e : Option Err}
    (h : WFg g) (he : addEdge g u v = (g', e)) : WFg g' := by
  cases e with
  | none => rw [(addEdge_ok he).1]; exact WFg_addEdgeRaw h u v
  | some e0 => rw [(addEdge_err he).1]; exact h

theorem addEdge_preserves_acyclic {g : Graph} {u v : String} {g' : Graph}
    (hWF : WFg g) (hacy : Acyclic g) (huv : u ≠ v)
    (h : addEdge g u v = (g', none)) : Acyclic g' := by
  obtain ⟨rfl, hguard⟩ := addEdge_ok h
  intro a b hab hba
  by_cases hun : u ∈ g.nodes
  · by_cases hvn : v ∈ g.nodes
    · have hnvu : ¬ RTc g v u := fun hr =>
        hguard ⟨⟨hun, hvn⟩, Or.inr (reach_iff.mpr hr)⟩
      rcases Finset.mem_insert.mp hab with heq | hmem
      · have ha : a = u := congrArg Prod.fst heq
        have hb : b = v := congrArg Prod.snd heq
        rw [ha, hb] at hba
        exact hnvu (RT_addRaw_from_v hnvu hba)
      · rcases RT_addRaw_decomp hnvu hba with hr | ⟨hbu, hva⟩
        · exact hacy a b hmem hr
        · exact hnvu ((hva.tail hmem).trans hbu)
    · rcases Finset.mem_insert.mp hab with heq | hmem
      · have ha : a = u := congrArg Prod.fst heq
        have hb : b = v := congrArg Prod.snd heq
        rw [ha, hb] at hba
        exact huv (RT_addRaw_no_out hWF hvn huv hba)
      · rcases RT_addRaw hba with hr | ⟨hbu, hva⟩
        · exact hacy a b hmem hr
        · have hav : a = v := RT_addRaw_no_out hWF hvn huv hva
          subst hav
          exact hvn (hWF _ hmem).1
  · rcases Finset.mem_insert.mp hab with heq | hmem
    · have ha : a = u := congrArg Prod.fst heq
      have hb : b = v := congrArg Prod.snd heq
      rw [ha, hb] at hba
      exact huv (RT_addRaw_no_in hWF hun huv hba).symm
    · rcases RT_addRaw hba with hr | ⟨hbu, _⟩
      · exact hacy a b hmem hr
      · have hbu2 : b = u := RT_no_in hWF hun hbu
        subst hbu2
        exact hun (hWF _ hmem).2

theorem WFg_emptyG : WFg emptyG := by
  intro e he
  simp [emptyG] at he

theorem acyclic_emptyG : Acyclic emptyG := by
  intro a b hab
  simp [emptyG] at hab

theorem edgeFold_inv {ps : List (String × String)} :
    ∀ {g g' : Graph}, WFg g → Acyclic g → (∀ p ∈ ps, p.1 ≠ p.2) →
      edgeFold g ps = (g', none) → WFg g' ∧ Acyclic g' := by
  induction ps with
  | nil =>
    intro g g' hWF hacy _ h
    cases h
    exact ⟨hWF, hacy⟩
  | cons p rest ih =>
    intro g g' hWF hacy hne h
    simp only [edgeFold] at h
    rcases hE : addEdge g p.1 p.2 with ⟨g1, e?⟩
    rw [hE] at h
    cases e? with
    | some e => exact absurd (congrArg Prod.snd h) (by simp)
    | none =>
      have hWF1 : WFg g1 := WFg_addEdge hWF hE
      have hacy1 : Acyclic g1 :=
        addEdge_preserves_acyclic hWF hacy (hne p (List.mem_cons_self p rest)) hE
      exact ih hWF1 hacy1 (fun q hq => hne q (List.mem_cons_of_mem p hq)) h

theorem edgeFold_ok_edges {ps : List (String × String)} :
    ∀ {g g' : Graph}, edgeFold g ps = (g', none) →
      g'.edges = g.edges ∪ ps.toFinset := by
  induction ps with
  | nil =>
    intro g g' h
    cases h
    simp
  | cons p rest ih =>
    intro g g' h
    simp only [edgeFold] at h
    rcases hE : addEdge g p.1 p.2 with ⟨g1, e?⟩
    rw [hE] at h
    cases e? with
    | some e => exact absurd (congrArg Prod.snd h) (by simp)
    | none =>
      have h1 : g1.edges = insert (p.1, p.2) g.edges := by
        rw [(addEdge_ok hE).1]
        rfl
      rw [ih h, h1]
      ext q
      simp only [Finset.mem_union, Finset.mem_insert, List.toFinset_cons, List.mem_toFinset]
      constructor
      · rintro ((rfl | hq) | hq)
        · exact Or.inr (Or.inl rfl)
        · exact Or.inl hq
        · exact Or.inr (Or.inr hq)
      · rintro (hq | (rfl | hq))
        · exact Or.inl (Or.inr hq)
        · exact Or.inl (Or.inl rfl)
        · exact Or.inr hq

theorem edgeFold_ok_mem {ps : List (String × String)} {g g' : Graph}
    (h : edgeFold g ps = (g', none)) : ∀ p ∈ ps, p ∈ g'.edges := by
  intro p hp
  rw [edgeFold_ok_edges h]
  exact Finset.mem_union_right _ (List.mem_toFinset.mpr hp)

theorem edgeFold_WF {ps : List (String × String)} :
    ∀ {g g' : Graph} {e : Option Err}, WFg g → edgeFold g ps = (g', e) → WFg g' := by
  induction ps with
  | nil =>
    intro g g' e hWF h
    cases h
    exact hWF
  | cons p rest ih =>
    intro g g' e hWF h
    simp only [edgeFold] at h
    rcases hE : addEdge g p.1 p.2 with ⟨g1, e?⟩
    rw [hE] at h
    cases e? with
    | some e0 =>
      cases h
      exact WFg_addEdge hWF hE
    | none => exact ih (WFg_addEdge hWF hE) h

/-- Re-adding an edge already present in an acyclic well-formed graph
silently succeeds and leaves the graph unchanged. -/
theorem addEdge_replay {g : Graph} {u v : String} (hWF : WFg g) (hacy : Acyclic g)
    (hmem : (u, v) ∈ g.edges) : addEdge g u v = (g, none) := by
  have hguard : ¬((u ∈ g.nodes ∧ v ∈ g.nodes) ∧ ((v, u) ∈ g.edges ∨ reach g v u)) := by
    rintro ⟨-, hvu | hvu⟩
    · exact hacy u v hmem (Relation.ReflTransGen.single hvu)
    · exact hacy u v hmem (reach_iff.mp hvu)
  have hraw : addEdgeRaw g u v = g := by
    have hu : u ∈ g.nodes := (hWF _ hmem).1
    have hv : v ∈ g.nodes := (hWF _ hmem).2
    unfold addEdgeRaw
    cases g with
    | mk ns es =>
      simp only [Graph.mk.injEq]
      exact ⟨by rw [Finset.insert_eq_self.mpr hv, Finset.insert_eq_self.mpr hu],
        Finset.insert_eq_self.mpr hmem⟩
  unfold addEdge
  rw [if_neg hguard, hraw]

theorem edgeFold_replay {ps : List (String × String)} {g : Graph}
    (hWF : WFg g) (hacy : Acyclic g) (hmem : ∀ p ∈ ps, p ∈ g.edges) :
    edgeFold g ps = (g, none) := by
  induction ps with
  | nil => rfl
  | cons p rest ih =>
    simp only [edgeFold]
    rw [addEdge_replay hWF hacy (hmem p (List.mem_cons_self p rest))]
    exact ih (fun q hq => hmem q (List.mem_cons_of_mem p hq))

theorem edgeFold_append {l1 l2 : List (String × String)} :
    ∀ {g : Graph}, edgeFold g (l1 ++ l2) =
      match edgeFold g l1 with
      | (g1, none) => edgeFold g1 l2
      | (g1, some e) => (g1, some e) := by
  induction l1 with
  | nil => intro g; rfl
  | cons p rest ih =>
    intro g
    simp only [List.cons_append, edgeFold]
    rcases addEdge g p.1 p.2 with ⟨g1, e?⟩
    cases e? with
    | none => exact ih
    | some e => rfl

theorem chainLoop_eq {l : List String} :
    ∀ {g : Graph} {a : String},
      chainLoop g (some a) l = edgeFold g (zipConsec (a :: l)) := by
  induction l with
  | nil => intro g a; rfl
  | cons b rest ih =>
    intro g a
    simp only [chainLoop, zipConsec, List.zip_cons_cons, List.tail_cons, edgeFold]
    rcases addEdge g a b with ⟨g1, e?⟩
    cases e? with
    | none => exact ih
    | some e => rfl

theorem ingestContainerPath_eq (g : Graph) (path : String) :
    ingestContainerPath g path = edgeFold g (chainPairs path) := by
  unfold ingestContainerPath chainPairs
  cases accPrefixes path with
  | nil => rfl
  | cons h t => exact chainLoop_eq

theorem tagLoop_eq {tags : List String} :
    ∀ {g : Graph} {source : String},
      tagLoop g source tags =
        edgeFold g (tags.flatMap (fun t => chainPairs t ++ [(t, source)])) := by
  induction tags with
  | nil => intro g source; rfl
  | cons t rest ih =>
    intro g source
    have hassoc : (chainPairs t ++ [(t, source)]) ++
        rest.flatMap (fun s => chainPairs s ++ [(s, source)]) =
        chainPairs t ++ ((t, source) :: rest.flatMap (fun s => chainPairs s ++ [(s, source)])) := by
      simp
    simp only [List.flatMap_cons]
    rw [hassoc, edgeFold_append, ← ingestContainerPath_eq]
    simp only [tagLoop]
    rcases ingestContainerPath g t with ⟨g1, e?⟩
    cases e? with
    | some e => rfl
    | none =>
      simp only [edgeFold]
      rcases addEdge g1 t source with ⟨g2, e2⟩
      cases e2 with
      | some e => rfl
      | none => exact ih

theorem parseLine_eq (g : Graph) (line : String) :
    parseLine g line = edgeFold g (lineEdges line) := by
  unfold parseLine lineEdges
  dsimp only
  split
  · rfl
  · simp only [recordEdges]
    rw [edgeFold_append, ← ingestContainerPath_eq]
    rcases ingestContainerPath g (pySplit ' ' (pyStrip line)).headI with ⟨g1, e?⟩
    cases e? with
    | some e => rfl
    | none => exact tagLoop_eq

theorem load_eq (g : Graph) (ls : List String) :
    load g ls = edgeFold g (ls.flatMap lineEdges) := by
  induction ls generalizing g with
  | nil => rfl
  | cons line rest ih =>
    simp only [load, List.flatMap_cons, edgeFold_append]
    rw [parseLine_eq]
    rcases edgeFold g (lineEdges line) with ⟨g1, e?⟩
    cases e? with
    | some e => rfl
    | none => exact ih g1

theorem acyclic_iff {g : Graph} : Acyclic g ↔ AcyclicB g := by
  constructor
  · rintro h ⟨a, b⟩ he hr
    exact h a b he (reach_iff.mp hr)
  · intro h a b hab hr
    exact h (a, b) hab (reach_iff.mpr hr)

/-- C2: `add_edge(u, v)` raises CycleError exactly when both `u` and `v`
already existed as nodes and `v` can already reach `u` (reflexively and
transitively); a call with a new endpoint never raises; and a raising call
leaves the graph unchanged. -/
theorem C2_addEdge_cycle_guard (g : Graph) (u v : String) :
    ((addEdge g u v).2 = some (Err.valueError "Adding this edge will create a cycle.") ↔
      u ∈ g.nodes ∧ v ∈ g.nodes ∧ RTc g v u) ∧
    ((u ∉ g.nodes ∨ v ∉ g.nodes) → (addEdge g u v).2 = none) ∧
    ((addEdge g u v).2.isSome → (addEdge g u v).1 = g) := by
  by_cases hcond : (u ∈ g.nodes ∧ v ∈ g.nodes) ∧ ((v, u) ∈ g.edges ∨ reach g v u)
  · have he : addEdge g u v = (g, some (Err.valueError "Adding this edge will create a cycle.")) := by
      unfold addEdge
      rw [if_pos hcond]
    rw [he]
    refine ⟨⟨fun _ => ⟨hcond.1.1, hcond.1.2, ?_⟩, fun _ => rfl⟩, fun hnew => ?_, fun _ => rfl⟩
    · rcases hcond.2 with hvu | hvu
      · exact Relation.ReflTransGen.single hvu
      · exact reach_iff.mp hvu
    · rcases hnew with hnew | hnew
      · exact absurd hcond.1.1 hnew
      · exact absurd hcond.1.2 hnew
  · have he : addEdge g u v = (addEdgeRaw g u v, none) := by
      unfold addEdge
      rw [if_neg hcond]
    rw [he]
    refine ⟨⟨fun h => absurd h (by simp), fun hrt => ?_⟩, fun _ => rfl, fun h => absurd h (by simp)⟩
    exact absurd ⟨⟨hrt.1, hrt.2.1⟩, Or.inr (reach_iff.mpr hrt.2.2)⟩ hcond

/-- C2 witness: on the graph with single edge a → b, add_edge(b, a) raises
and leaves the graph unchanged. -/
theorem C2_witness :
    (addEdge ⟨{"a", "b"}, {("a", "b")}⟩ "b" "a").2 =
      some (Err.valueError "Adding this edge will create a cycle.") ∧
    (addEdge ⟨{"a", "b"}, {("a", "b")}⟩ "b" "a").1 = ⟨{"a", "b"}, {("a", "b")}⟩ := by
  have h := C2_addEdge_cycle_guard ⟨{"a", "b"}, {("a", "b")}⟩ "b" "a"
  have he := h.1.mpr ⟨by decide, by decide,
    Relation.ReflTransGen.single (show ("a", "b") ∈
      (⟨{"a", "b"}, {("a", "b")}⟩ : Graph).edges by decide)⟩
  exact ⟨he, h.2.2 (by rw [he]; rfl)⟩

/-- C1 counterexample: the single call add_edge("a", "a") on the empty graph
raises nothing (both endpoints are new, so the guard is skipped) yet creates
a self-loop, a cyclic graph. -/
theorem C1_counterexample :
    edgeFold emptyG [("a", "a")] = (⟨{"a"}, {("a", "a")}⟩, none) ∧
    ¬ Acyclic ⟨{"a"}, {("a", "a")}⟩ := by
  refine ⟨by decide, fun h => ?_⟩
  exact h "a" "a" (by decide) Relation.ReflTransGen.refl

/-- C1 amended: a sequence of add_edge calls on the initially empty graph in
which every call has distinct endpoints and none raised leaves the graph
acyclic (self-loop calls on a brand-new node are the only way to slip a
cycle past the guard). -/
theorem C1_acyclic_of_no_self_loop {ps : List (String × String)} {g : Graph}
    (hne : ∀ p ∈ ps, p.1 ≠ p.2) (h : edgeFold emptyG ps = (g, none)) : Acyclic g :=
  (edgeFold_inv WFg_emptyG acyclic_emptyG hne h).2

/-- C1 witness: the two-call sequence a → b, b → c succeeds and is acyclic. -/
theorem C1_witness : Acyclic ⟨{"b", "a", "c"}, {("a", "b"), ("b", "c")}⟩ := by
  exact @C1_acyclic_of_no_self_loop [("a", "b"), ("b", "c")] _ (by decide) (by decide)

/-- C8 counterexample: the one-line file "a a" loads successfully (creating
a self-loop through the skipped guard), but loading it a second time raises
CycleError, so a second load is not error-free. -/
theorem C8_counterexample :
    load emptyG ["a a"] = (⟨{"a"}, {("a", "a")}⟩, none) ∧
    load ⟨{"a"}, {("a", "a")}⟩ ["a a"] =
      (⟨{"a"}, {("a", "a")}⟩, some (Err.valueError "Adding this edge will create a cycle.")) := by
  exact ⟨by decide, by decide⟩

/-- C8 amended: if a single load of a file from the empty graph succeeds and
the resulting graph is acyclic, then loading the same file again succeeds
and changes nothing (every re-added edge is already present, and the guard
stays quiet on an acyclic graph). -/
theorem C8_load_idempotent_of_acyclic {ls : List String} {g1 : Graph}
    (h : load emptyG ls = (g1, none)) (hacy : Acyclic g1) :
    load g1 ls = (g1, none) := by
  have hWF : WFg g1 := by
    rw [load_eq] at h
    exact edgeFold_WF WFg_emptyG h
  rw [load_eq] at h ⊢
  exact edgeFold_replay hWF hacy (edgeFold_ok_mem h)

/-- C8 witness: the one-line file "a b" loads to the single edge b → a and a
second load reproduces the same graph with no error. -/
theorem C8_witness : load ⟨{"b", "a"}, {("b", "a")}⟩ ["a b"] =
    (⟨{"b", "a"}, {("b", "a")}⟩, none) := by
  exact @C8_load_idempotent_of_acyclic ["a b"] _ (by decide) (acyclic_iff.mpr (by decide))

theorem mem_tagList {s : Finset String} {x : String} : x ∈ tagList s ↔ x ∈ s := by
  rcases s with ⟨val, nodup⟩
  revert nodup
  induction val using Quot.inductionOn with
  | h l =>
    intro nodup
    show x ∈ List.insertionSort strLe l ↔ _
    rw [List.Perm.mem_iff (List.perm_insertionSort _ l)]
    simp [Finset.mem_mk]

theorem tagList_ne_nil {s : Finset String} (h : s ≠ ∅) : tagList s ≠ [] := by
  intro hnil
  refine h (Finset.eq_empty_iff_forall_not_mem.mpr fun x hx => ?_)
  have hmem := mem_tagList.mpr hx
  rw [hnil] at hmem
  cases hmem

theorem goLeaf_ok_mem {g : Graph} {rest : List String} :
    ∀ {acc r : Finset String}, goLeaf g acc rest = .ok r →
      ∀ x, x ∈ r ↔ x ∈ acc ∧ ∀ t ∈ rest, x ∈ leafD g t := by
  induction rest with
  | nil =>
    intro acc r h x
    cases h
    simp
  | cons t ts ih =>
    intro acc r h x
    simp only [goLeaf] at h
    split at h
    · rw [ih h x, Finset.mem_inter, List.forall_mem_cons]
      constructor
      · rintro ⟨⟨h1, h2⟩, h3⟩
        exact ⟨h1, h2, h3⟩
      · rintro ⟨h1, h2, h3⟩
        exact ⟨⟨h1, h2⟩, h3⟩
    · exact Except.noConfusion h

theorem goLeaf_ok_nodes {g : Graph} {rest : List String} :
    ∀ {acc r : Finset String}, goLeaf g acc rest = .ok r → ∀ t ∈ rest, t ∈ g.nodes := by
  induction rest with
  | nil => intro acc r _ t ht; cases ht
  | cons t ts ih =>
    intro acc r h s hs
    simp only [goLeaf] at h
    split at h
    · rename_i htn
      rcases List.mem_cons.mp hs with rfl | hs
      · exact htn
      · exact ih h s hs
    · exact Except.noConfusion h

theorem goLeaf_ok_exists {g : Graph} {rest : List String} :
    ∀ (acc : Finset String), (∀ t ∈ rest, t ∈ g.nodes) →
      ∃ r, goLeaf g acc rest = .ok r := by
  induction rest with
  | nil => intro acc _; exact ⟨acc, rfl⟩
  | cons t ts ih =>
    intro acc hn
    simp only [goLeaf]
    rw [if_pos (hn t (List.mem_cons_self t ts))]
    exact ih _ fun s hs => hn s (List.mem_cons_of_mem t hs)

theorem goLeaf_err_of_absent {g : Graph} {rest : List String} :
    ∀ (acc : Finset String), (∃ t ∈ rest, t ∉ g.nodes) →
      ∃ n, n ∉ g.nodes ∧ goLeaf g acc rest = .error (.nodeNotFound n) := by
  induction rest with
  | nil =>
    intro acc h
    obtain ⟨t, ht, -⟩ := h
    cases ht
  | cons t ts ih =>
    intro acc h
    simp only [goLeaf]
    by_cases htn : t ∈ g.nodes
    · rw [if_pos htn]
      refine ih _ ?_
      obtain ⟨w, hw, hwn⟩ := h
      rcases List.mem_cons.mp hw with rfl | hw
      · exact absurd htn hwn
      · exact ⟨w, hw, hwn⟩
    · rw [if_neg htn]
      exact ⟨t, htn, rfl⟩

theorem getLeaf_ok_mem {g : Graph} {ts : List String} {r : Finset String}
    (h : getLeafNodesTaggedBy g ts = .ok r) :
    ∀ x, x ∈ r ↔ ∀ t ∈ ts, x ∈ leafD g t := by
  cases ts with
  | nil => exact Except.noConfusion h
  | cons t rest =>
    intro x
    simp only [getLeafNodesTaggedBy] at h
    split at h
    · rw [goLeaf_ok_mem h x, List.forall_mem_cons]
    · exact Except.noConfusion h

theorem getLeaf_ok_nodes {g : Graph} {ts : List String} {r : Finset String}
    (h : getLeafNodesTaggedBy g ts = .ok r) : ts ≠ [] ∧ ∀ t ∈ ts, t ∈ g.nodes := by
  cases ts with
  | nil => exact Except.noConfusion h
  | cons t rest =>
    simp only [getLeafNodesTaggedBy] at h
    split at h
    · rename_i htn
      refine ⟨by simp, ?_⟩
      intro s hs
      rcases List.mem_cons.mp hs with rfl | hs
      · exact htn
      · exact goLeaf_ok_nodes h s hs
    · exact Except.noConfusion h

theorem getLeaf_ok_exists {g : Graph} {ts : List String} (hne : ts ≠ [])
    (hn : ∀ t ∈ ts, t ∈ g.nodes) : ∃ r, getLeafNodesTaggedBy g ts = .ok r := by
  cases ts with
  | nil => exact absurd rfl hne
  | cons t rest =>
    simp only [getLeafNodesTaggedBy]
    rw [if_pos (hn t (List.mem_cons_self t rest))]
    exact goLeaf_ok_exists _ fun s hs => hn s (List.mem_cons_of_mem t hs)

theorem getLeaf_err_of_absent {g : Graph} {ts : List String} (hne : ts ≠ [])
    (habs : ∃ t ∈ ts, t ∉ g.nodes) :
    ∃ n, n ∉ g.nodes ∧ getLeafNodesTaggedBy g ts = .error (.nodeNotFound n) := by
  cases ts with
  | nil => exact absurd rfl hne
  | cons t rest =>
    simp only [getLeafNodesTaggedBy]
    by_cases htn : t ∈ g.nodes
    · rw [if_pos htn]
      refine goLeaf_err_of_absent _ ?_
      obtain ⟨w, hw, hwn⟩ := habs
      rcases List.mem_cons.mp hw with rfl | hw
      · exact absurd htn hwn
      · exact ⟨w, hw, hwn⟩
    · rw [if_neg htn]
      exact ⟨t, htn, rfl⟩

/-- Two non-empty tag lists with the same element set give the same
successful query result (the intersection ignores order and repetition). -/
theorem getLeaf_exchange {g : Graph} {L1 L2 : List String} {r : Finset String}
    (h : getLeafNodesTaggedBy g L1 = .ok r) (hne : L2 ≠ [])
    (hsame : ∀ x, x ∈ L2 ↔ x ∈ L1) : getLeafNodesTaggedBy g L2 = .ok r := by
  obtain ⟨-, hnodes⟩ := getLeaf_ok_nodes h
  obtain ⟨r2, h2⟩ := getLeaf_ok_exists hne fun t ht => hnodes t ((hsame t).mp ht)
  have : r2 = r := by
    ext x
    rw [getLeaf_ok_mem h2 x, getLeaf_ok_mem h x]
    constructor
    · intro hh t ht
      exact hh t ((hsame t).mpr ht)
    · intro hh t ht
      exact hh t ((hsame t).mp ht)
  rwa [this] at h2

theorem reachAux_subset_of {g : Graph} {T : Finset String} (hT : reachTargets g ⊆ T) :
    ∀ (n : Nat) (S : Finset String), S ⊆ T → reachAux g n S ⊆ T := by
  intro n
  induction n with
  | zero => intro S hS; exact hS
  | succ n ih =>
    intro S hS
    simp only [reachAux]
    split
    · exact hS
    · exact ih _ (satStep_subset hS hT)

theorem reachSet_subset (g : Graph) (u : String) :
    reachSet g u ⊆ insert u (reachTargets g) :=
  reachAux_subset_of (Finset.subset_insert _ _) _ _ (by simp)

/-- On a well-formed graph, a successful leaf query only returns nodes. -/
theorem getLeaf_result_nodes {g : Graph} {ts : List String} {r : Finset String}
    (hWF : WFg g) (h : getLeafNodesTaggedBy g ts = .ok r) : r ⊆ g.nodes := by
  intro x hx
  obtain ⟨hne, -⟩ := getLeaf_ok_nodes h
  cases ts with
  | nil => exact absurd rfl hne
  | cons t rest =>
    have hx0 := (getLeaf_ok_mem h x).mp hx t (List.mem_cons_self t rest)
    have hxd : x ∈ descendants g t := Finset.mem_of_mem_filter x hx0
    have hxr : x ∈ reachSet g t := Finset.mem_of_mem_erase hxd
    have hxne : x ≠ t := Finset.ne_of_mem_erase hxd
    rcases Finset.mem_insert.mp (reachSet_subset g t hxr) with rfl | hxT
    · exact absurd rfl hxne
    · obtain ⟨e, he, hee⟩ := Finset.mem_image.mp hxT
      rw [← hee]
      exact (hWF e he).2

/-- The predicate the `add_tag` filter loop keeps a candidate by. -/
def keepP (g : Graph) (appliedL : List String) (fileResults : Finset String)
    (c : String) : Prop :=
  ∃ r, getLeafNodesTaggedBy g (appliedL ++ [c]) = .ok r ∧
    r ⊆ fileResults ∧ 0 < r.card

theorem filterUseful_ok_mem {g : Graph} {appliedL : List String}
    {fileResults : Finset String} {l : List String} :
    ∀ {s : Finset String}, filterUseful g appliedL fileResults l = .ok s →
      ∀ c, c ∈ s ↔ c ∈ l ∧ keepP g appliedL fileResults c := by
  induction l with
  | nil =>
    intro s h c
    cases h
    simp
  | cons d ds ih =>
    intro s h c
    simp only [filterUseful] at h
    rcases hq : getLeafNodesTaggedBy g (appliedL ++ [d]) with e | r0
    · rw [hq] at h
      exact Except.noConfusion h
    · rw [hq] at h
      rcases hrest : filterUseful g appliedL fileResults ds with e2 | acc
      · rw [hrest] at h
        exact Except.noConfusion h
      · rw [hrest] at h
        have hs : (if r0 ⊆ fileResults ∧ 0 < r0.card then insert d acc else acc) = s := by
          injection h
        by_cases hc : c = d
        · subst hc
          by_cases hcond : r0 ⊆ fileResults ∧ 0 < r0.card
          · rw [if_pos hcond] at hs
            rw [← hs]
            constructor
            · intro _
              exact ⟨List.mem_cons_self _ _, r0, hq, hcond.1, hcond.2⟩
            · intro _
              exact Finset.mem_insert_self _ _
          · rw [if_neg hcond] at hs
            rw [← hs]
            constructor
            · intro hmem
              obtain ⟨hds, hk⟩ := (ih hrest c).mp hmem
              exact ⟨List.mem_cons_of_mem _ hds, hk⟩
            · rintro ⟨-, r, hq2, hsub, hpos⟩
              rw [hq] at hq2
              injection hq2 with hq3
              rw [← hq3] at hsub hpos
              exact absurd ⟨hsub, hpos⟩ hcond
        · have hmm : c ∈ s ↔ c ∈ acc := by
            rw [← hs]
            by_cases hcond : r0 ⊆ fileResults ∧ 0 < r0.card
            · rw [if_pos hcond]
              simp [Finset.mem_insert, hc]
            · rw [if_neg hcond]
          rw [hmm, ih hrest c, List.mem_cons]
          constructor
          · rintro ⟨hds, hk⟩
            exact ⟨Or.inr hds, hk⟩
          · rintro ⟨rfl | hds, hk⟩
            · exact absurd rfl hc
            · exact ⟨hds, hk⟩

theorem filterUseful_ok_of {g : Graph} {appliedL : List String}
    {fileResults : Finset String} {l : List String}
    (h : ∀ c ∈ l, ∃ r, getLeafNodesTaggedBy g (appliedL ++ [c]) = .ok r) :
    ∃ s, filterUseful g appliedL fileResults l = .ok s := by
  induction l with
  | nil => exact ⟨∅, rfl⟩
  | cons d ds ih =>
    simp only [filterUseful]
    obtain ⟨r0, hr0⟩ := h d (List.mem_cons_self d ds)
    rw [hr0]
    obtain ⟨acc, hacc⟩ := ih fun c hc => h c (List.mem_cons_of_mem d hc)
    rw [hacc]
    exact ⟨_, rfl⟩

theorem submitQuery_of_ne {g : Graph} {b : Browser} (h : b.applied ≠ ∅) :
    submitQuery g b = getLeafNodesTaggedBy g (tagList b.applied) := by
  unfold submitQuery
  rw [if_neg h]

/-- The success shape of `add_tag`: the queries it runs and the state it
leaves. -/
theorem addTag_ok {g : Graph} {b : Browser} {tag : String} {b' : Browser}
    (h : addTag g b tag = (b', none)) :
    ∃ fileResults children useful3,
      submitQuery g ⟨insert tag b.applied, b.useful⟩ = .ok fileResults ∧
      getItemsImmediatelyTaggedBy g [tag] = .ok children ∧
      filterUseful g (tagList (insert tag b.applied)) fileResults
        (tagList ((b.useful.erase tag) ∪ children)) = .ok useful3 ∧
      b' = ⟨insert tag b.applied, useful3⟩ := by
  unfold addTag at h
  dsimp only at h
  rcases h1 : submitQuery g ⟨insert tag b.applied, b.useful⟩ with e | fr
  · rw [h1] at h
    dsimp only at h
    exact absurd (congrArg Prod.snd h) (by simp)
  · rw [h1] at h
    dsimp only at h
    rcases h2 : getItemsImmediatelyTaggedBy g [tag] with e | ch
    · rw [h2] at h
      dsimp only at h
      exact absurd (congrArg Prod.snd h) (by simp)
    · rw [h2] at h
      dsimp only at h
      rcases h3 : filterUseful g (tagList (insert tag b.applied)) fr
          (tagList ((b.useful.erase tag) ∪ ch)) with e | u3
      · rw [h3] at h
        dsimp only at h
        exact absurd (congrArg Prod.snd h) (by simp)
      · rw [h3] at h
        dsimp only at h
        exact ⟨fr, ch, u3, rfl, rfl, h3, (congrArg Prod.fst h).symm⟩

/-- When the re-query after growing `applied_tags` raises, `add_tag` returns
that error with `applied_tags` already containing the new tag. -/
theorem addTag_err_submit {g : Graph} {b : Browser} {tag : String} {e : Err}
    (h : submitQuery g ⟨insert tag b.applied, b.useful⟩ = .error e) :
    addTag g b tag = (⟨insert tag b.applied, b.useful⟩, some e) := by
  unfold addTag
  dsimp only
  rw [h]

/-- Whatever happens, `add_tag` leaves the new tag inside `applied_tags`. -/
theorem addTag_applied {g : Graph} {b : Browser} {tag : String} :
    (addTag g b tag).1.applied = insert tag b.applied := by
  unfold addTag
  dsimp only
  rcases h1 : submitQuery g ⟨insert tag b.applied, b.useful⟩ with e | fr
  · rfl
  · dsimp only
    rcases h2 : getItemsImmediatelyTaggedBy g [tag] with e | ch
    · rfl
    · dsimp only
      rcases h3 : filterUseful g (tagList (insert tag b.applied)) fr
          (tagList ((b.useful.erase tag) ∪ ch)) with e | u3
      · rfl
      · rfl

/-- The invariant established by every successful `add_tag` call: each
surviving frontier tag refines the post-state result set to a non-empty
subset. -/
theorem frontierInv {g : Graph} {b : Browser} {tag : String} {b' : Browser}
    (h : addTag g b tag = (b', none)) :
    ∀ t ∈ b'.useful, ∃ r r',
      leafSet g (insert t b'.applied) = .ok r ∧
      leafSet g b'.applied = .ok r' ∧
      r ≠ ∅ ∧ r ⊆ r' := by
  obtain ⟨fr, ch, u3, h1, h2, h3, rfl⟩ := addTag_ok h
  intro t ht
  obtain ⟨htl, r, hq, hsub, hpos⟩ := (filterUseful_ok_mem h3 t).mp ht
  have hne : insert tag b.applied ≠ ∅ := Finset.insert_ne_empty _ _
  have hfr : getLeafNodesTaggedBy g (tagList (insert tag b.applied)) = .ok fr := by
    rw [← submitQuery_of_ne (b := ⟨insert tag b.applied, b.useful⟩) hne]
    exact h1
  have hq2 : leafSet g (insert t (insert tag b.applied)) = .ok r := by
    refine getLeaf_exchange hq (tagList_ne_nil (Finset.insert_ne_empty _ _)) ?_
    intro x
    rw [mem_tagList, Finset.mem_insert, List.mem_append, mem_tagList,
      List.mem_singleton]
    constructor
    · rintro (rfl | hx)
      · exact Or.inr rfl
      · exact Or.inl hx
    · rintro (hx | rfl)
      · exact Or.inr hx
      · exact Or.inl rfl
  refine ⟨r, fr, hq2, hfr, ?_, hsub⟩
  exact Finset.nonempty_iff_ne_empty.mp (Finset.card_pos.mp hpos)

/-- C3: in every session state produced by a successful add_tag call, each
tag t of useful_tags queries (together with the applied tags) to a
non-empty subset of the current result set leaf_items_tagged_by(applied_tags). -/
theorem C3_frontier_safety {g : Graph} {b : Browser} {tag : String} {b' : Browser}
    (h : addTag g b tag = (b', none)) :
    ∀ t ∈ b'.useful, ∃ r r',
      leafSet g (insert t b'.applied) = .ok r ∧
      leafSet g b'.applied = .ok r' ∧
      r ≠ ∅ ∧ r ⊆ r' :=
  frontierInv h

/-- C3 witness: in the two-record graph (items i1, i2; tags t, s) after
add_tag("t"), the surviving frontier tag "s" refines {i1, i2} to {i1}. -/
theorem C3_witness :
    ∃ r r',
      leafSet ⟨{"i1", "t", "s", "i2"}, {("t", "i1"), ("s", "i1"), ("t", "i2")}⟩
        (insert "s" ({"t"} : Finset String)) = .ok r ∧
      leafSet ⟨{"i1", "t", "s", "i2"}, {("t", "i1"), ("s", "i1"), ("t", "i2")}⟩
        ({"t"} : Finset String) = .ok r' ∧
      r ≠ ∅ ∧ r ⊆ r' := by
  have h := @C3_frontier_safety
    ⟨{"i1", "t", "s", "i2"}, {("t", "i1"), ("s", "i1"), ("t", "i2")}⟩
    (freshBrowser ⟨{"i1", "t", "s", "i2"}, {("t", "i1"), ("s", "i1"), ("t", "i2")}⟩)
    "t" ⟨{"t"}, {"s"}⟩ (by decide)
  exact h "s" (by decide)

/-- States reached by at least one add_tag call satisfy the frontier
invariant. -/
theorem reachable_frontier {g : Graph} {b : Browser} (hr : Reachable g b)
    (hne : b.applied ≠ ∅) :
    ∀ t ∈ b.useful, ∃ r r',
      leafSet g (insert t b.applied) = .ok r ∧
      leafSet g b.applied = .ok r' ∧
      r ≠ ∅ ∧ r ⊆ r' := by
  cases hr with
  | init => exact absurd rfl hne
  | step hprev hstep => exact frontierInv hstep

/-- C4 counterexample: in the freshly constructed (hence reachable) session
on the graph loaded from "a b", applying the frontier tag "b" turns the
empty-by-convention query result into {a}, which is not a subset of the
previous result. -/
theorem C4_counterexample :
    Reachable ⟨{"b", "a"}, {("b", "a")}⟩ (freshBrowser ⟨{"b", "a"}, {("b", "a")}⟩) ∧
    "b" ∈ (freshBrowser ⟨{"b", "a"}, {("b", "a")}⟩).useful ∧
    submitQuery ⟨{"b", "a"}, {("b", "a")}⟩ (freshBrowser ⟨{"b", "a"}, {("b", "a")}⟩) = .ok ∅ ∧
    (addTag ⟨{"b", "a"}, {("b", "a")}⟩ (freshBrowser ⟨{"b", "a"}, {("b", "a")}⟩) "b").2 = none ∧
    submitQuery ⟨{"b", "a"}, {("b", "a")}⟩
      (addTag ⟨{"b", "a"}, {("b", "a")}⟩ (freshBrowser ⟨{"b", "a"}, {("b", "a")}⟩) "b").1 = .ok {"a"} ∧
    ¬ (({"a"} : Finset String) ⊆ (∅ : Finset String)) :=
  ⟨Reachable.init, by decide, by decide, by decide, by decide, by decide⟩

/-- C4 amended: for reachable session states with at least one applied tag
(every state except the initial unconstrained one), the query value after
add_tag(t), for t drawn from the state's useful_tags, is a subset of the
query value before. -/
theorem C4_monotonic_subset {g : Graph} {b : Browser} {t : String}
    {b' : Browser} {e : Option Err}
    (hr : Reachable g b) (hne : b.applied ≠ ∅) (ht : t ∈ b.useful)
    (h : addTag g b t = (b', e)) :
    ∃ rNew rOld, submitQuery g b' = .ok rNew ∧ submitQuery g b = .ok rOld ∧
      rNew ⊆ rOld := by
  obtain ⟨r, r', hq1, hq2, -, hsub⟩ := reachable_frontier hr hne t ht
  have hb : submitQuery g b = .ok r' := by
    rw [submitQuery_of_ne hne]
    exact hq2
  have happ : b'.applied = insert t b.applied := by
    have ha := @addTag_applied g b t
    rw [h] at ha
    exact ha
  have hbne : b'.applied ≠ ∅ := by
    rw [happ]
    exact Finset.insert_ne_empty _ _
  have hb' : submitQuery g b' = .ok r := by
    rw [submitQuery_of_ne hbne, happ]
    exact hq1
  exact ⟨r, r', hb', hb, hsub⟩

/-- C4 witness: from the reachable constrained state ({t} applied, {s}
useful) of the two-record graph, applying "s" shrinks the result set. -/
theorem C4_witness :
    ∃ rNew rOld,
      submitQuery ⟨{"i1", "t", "s", "i2"}, {("t", "i1"), ("s", "i1"), ("t", "i2")}⟩
        ⟨{"s", "t"}, ∅⟩ = .ok rNew ∧
      submitQuery ⟨{"i1", "t", "s", "i2"}, {("t", "i1"), ("s", "i1"), ("t", "i2")}⟩
        ⟨{"t"}, {"s"}⟩ = .ok rOld ∧
      rNew ⊆ rOld :=
  @C4_monotonic_subset
    ⟨{"i1", "t", "s", "i2"}, {("t", "i1"), ("s", "i1"), ("t", "i2")}⟩
    ⟨{"t"}, {"s"}⟩ "s" ⟨{"s", "t"}, ∅⟩ none
    (@Reachable.step ⟨{"i1", "t", "s", "i2"}, {("t", "i1"), ("s", "i1"), ("t", "i2")}⟩
      (freshBrowser ⟨{"i1", "t", "s", "i2"}, {("t", "i1"), ("s", "i1"), ("t", "i2")}⟩)
      ⟨{"t"}, {"s"}⟩ "t" Reachable.init (by decide))
    (by decide) (by decide) (by decide)

/-- C6 counterexample: the empty-tag query on the empty graph fails, but
with Python's IndexError "list index out of range" from evaluating
tags[0], not with an InvalidQueryError saying "must provide at least one
tag" (no such message exists in the code). -/
theorem C6_counterexample :
    getLeafNodesTaggedBy emptyG [] = .error (.indexError "list index out of range") ∧
    errMsg (Err.indexError "list index out of range") ≠ "must provide at least one tag" :=
  ⟨rfl, by decide⟩

/-- C6 amended: calling leaf_items_tagged_by with an empty tag collection
fails for every graph — with the uncaught IndexError from indexing the
empty list, whose message is "list index out of range". -/
theorem C6_empty_query_fails (g : Graph) :
    getLeafNodesTaggedBy g [] = .error (.indexError "list index out of range") := rfl

/-- C7: applying a tag that is not a node of the graph makes add_tag fail
with a node-not-found error (networkx's NotFoundError), raised by the
re-query over the grown applied set. -/
theorem C7_absent_tag_fails (g : Graph) (b : Browser) (tag : String)
    (habs : tag ∉ g.nodes) :
    ∃ b' n, addTag g b tag = (b', some (Err.nodeNotFound n)) ∧ n ∉ g.nodes := by
  have hne : insert tag b.applied ≠ ∅ := Finset.insert_ne_empty _ _
  obtain ⟨n, hn, herr⟩ := getLeaf_err_of_absent (tagList_ne_nil hne)
    ⟨tag, mem_tagList.mpr (Finset.mem_insert_self _ _), habs⟩
  have hsub : submitQuery g ⟨insert tag b.applied, b.useful⟩ =
      .error (.nodeNotFound n) := by
    rw [submitQuery_of_ne (b := ⟨insert tag b.applied, b.useful⟩) hne]
    exact herr
  exact ⟨_, n, addTag_err_submit hsub, hn⟩

/-- C7 witness: applying "x" to a session over the empty graph fails with
node-not-found. -/
theorem C7_witness :
    ∃ b' n, addTag emptyG (freshBrowser emptyG) "x" =
      (b', some (Err.nodeNotFound n)) ∧ n ∉ emptyG.nodes :=
  C7_absent_tag_fails emptyG (freshBrowser emptyG) "x" (by decide)

/-- C9: add_tag is not atomic on failure — the absent tag is inserted into
applied_tags before the query raises, so the failing call leaves the tag
applied and every subsequent query on the session fails too. -/
theorem C9_addTag_not_atomic (g : Graph) (b : Browser) (tag : String)
    (habs : tag ∉ g.nodes) :
    (addTag g b tag).2.isSome ∧ tag ∈ (addTag g b tag).1.applied ∧
    ∃ e, submitQuery g (addTag g b tag).1 = .error e := by
  have hne : insert tag b.applied ≠ ∅ := Finset.insert_ne_empty _ _
  obtain ⟨n, hn, herr⟩ := getLeaf_err_of_absent (tagList_ne_nil hne)
    ⟨tag, mem_tagList.mpr (Finset.mem_insert_self _ _), habs⟩
  have hsub : submitQuery g ⟨insert tag b.applied, b.useful⟩ =
      .error (.nodeNotFound n) := by
    rw [submitQuery_of_ne (b := ⟨insert tag b.applied, b.useful⟩) hne]
    exact herr
  rw [addTag_err_submit hsub]
  exact ⟨rfl, Finset.mem_insert_self _ _, Err.nodeNotFound n, hsub⟩

/-- C9 witness: the failing add_tag("y") on the empty graph leaves "y"
applied and the follow-up query failing. -/
theorem C9_witness :
    (addTag emptyG (freshBrowser emptyG) "y").2.isSome ∧
    "y" ∈ (addTag emptyG (freshBrowser emptyG) "y").1.applied ∧
    ∃ e, submitQuery emptyG (addTag emptyG (freshBrowser emptyG) "y").1 = .error e :=
  C9_addTag_not_atomic emptyG (freshBrowser emptyG) "y" (by decide)

theorem mkData (s : String) : String.mk s.data = s := by
  cases s
  rfl

theorem splitChar_ne_nil (sep : Char) (l : List Char) : splitChar sep l ≠ [] := by
  cases l with
  | nil => simp [splitChar]
  | cons c cs =>
    simp only [splitChar]
    split
    · simp
    · split
      · simp
      · simp

theorem splitChar_length (sep : Char) (l : List Char) :
    (splitChar sep l).length = l.count sep + 1 := by
  induction l with
  | nil => rfl
  | cons c cs ih =>
    simp only [splitChar]
    by_cases hc : c = sep
    · rw [if_pos hc]
      subst hc
      simp [List.count_cons, ih]
    · rw [if_neg hc]
      rcases hsp : splitChar sep cs with _ | ⟨h1, t1⟩
      · exact absurd hsp (splitChar_ne_nil sep cs)
      · rw [hsp] at ih
        simp only [List.length_cons] at ih ⊢
        simp [List.count_cons, hc]
        omega

theorem splitChar_of_not_mem {sep : Char} {l : List Char} (h : sep ∉ l) :
    splitChar sep l = [l] := by
  induction l with
  | nil => rfl
  | cons c cs ih =>
    simp only [splitChar]
    rw [if_neg (by rintro rfl; exact h (List.mem_cons_self _ _))]
    rw [ih (fun hm => h (List.mem_cons_of_mem c hm))]

theorem accPrefixes_length (path : String) :
    (accPrefixes path).length = (pySplit '/' path).length := by
  unfold accPrefixes
  rcases pySplit '/' path with _ | ⟨h, t⟩
  · rfl
  · simp [List.length_scanl]

theorem accPrefixes_two_le {path : String} (hslash : '/' ∈ path.data) :
    2 ≤ (accPrefixes path).length := by
  rw [accPrefixes_length]
  unfold pySplit
  rw [List.length_map, splitChar_length]
  have : 0 < path.data.count '/' := List.count_pos_iff.mpr hslash
  omega

theorem mem_zipConsec {l : List String} (hlen : 2 ≤ l.length) {p : String}
    (hp : p ∈ l) : ∃ q ∈ zipConsec l, p = q.1 ∨ p = q.2 := by
  induction l with
  | nil => cases hp
  | cons a m ih =>
    cases m with
    | nil => simp at hlen
    | cons b m2 =>
      have hz : zipConsec (a :: b :: m2) = (a, b) :: zipConsec (b :: m2) := by
        simp [zipConsec]
      rcases List.mem_cons.mp hp with rfl | hp2
      · exact ⟨(p, b), by rw [hz]; exact List.mem_cons_self _ _, Or.inl rfl⟩
      · cases m2 with
        | nil =>
          have hpb : p = b := by simpa using hp2
          exact ⟨(a, b), by rw [hz]; exact List.mem_cons_self _ _, Or.inr hpb⟩
        | cons c m3 =>
          obtain ⟨q, hq, hpq⟩ := ih (by simp) hp2
          exact ⟨q, by rw [hz]; exact List.mem_cons_of_mem _ hq, hpq⟩

theorem prefix_pair {ident : String} (hslash : '/' ∈ ident.data) {p : String}
    (hp : p ∈ accPrefixes ident) : ∃ q ∈ chainPairs ident, p = q.1 ∨ p = q.2 :=
  mem_zipConsec (accPrefixes_two_le hslash) hp

/-- C5: for a successful record line, the edge set grows by exactly the
chain edges of the item's path, the chain edges of each tag's path, and one
edge from each fully qualified tag to the item; every prefix of a
'/'-containing identifier of the record ends up a node. -/
theorem C5_path_decomposition {g : Graph} {line : String} {g' : Graph}
    {source : String} {tags : List String}
    (hWF : WFg g)
    (hnc : pyStartsWith (pyStrip line) "#" = false) (hne : pyStrip line ≠ "")
    (hsplit : pySplit ' ' (pyStrip line) = source :: tags)
    (h : parseLine g line = (g', none)) :
    g'.edges = g.edges ∪ (recordEdges source tags).toFinset ∧
    (∀ t ∈ tags, (t, source) ∈ g'.edges) ∧
    (∀ ident ∈ source :: tags, '/' ∈ ident.data →
      ∀ p ∈ accPrefixes ident, p ∈ g'.nodes) := by
  rw [parseLine_eq] at h
  have hle : lineEdges line = recordEdges source tags := by
    unfold lineEdges
    rw [if_neg (by simp [hnc, hne]), hsplit]
    rfl
  rw [hle] at h
  refine ⟨edgeFold_ok_edges h, ?_, ?_⟩
  · intro t ht
    refine edgeFold_ok_mem h (t, source) ?_
    unfold recordEdges
    refine List.mem_append.mpr (Or.inr ?_)
    exact List.mem_flatMap.mpr ⟨t, ht,
      List.mem_append.mpr (Or.inr (List.mem_singleton.mpr rfl))⟩
  · intro ident hid hslash p hp
    have hWF' : WFg g' := edgeFold_WF hWF h
    obtain ⟨q, hq, hpq⟩ := prefix_pair hslash hp
    have hqrec : q ∈ recordEdges source tags := by
      rcases List.mem_cons.mp hid with rfl | hid2
      · exact List.mem_append.mpr (Or.inl hq)
      · exact List.mem_append.mpr (Or.inr
          (List.mem_flatMap.mpr ⟨ident, hid2, List.mem_append.mpr (Or.inl hq)⟩))
    have hqe : q ∈ g'.edges := edgeFold_ok_mem h q hqrec
    rcases hpq with rfl | rfl
    · exact (hWF' q hqe).1
    · exact (hWF' q hqe).2

/-- C5 witness: the line "a/b t/u" from the empty graph commits exactly the
edges a → a/b, t → t/u and t/u → a/b, with all four prefixes as nodes. -/
theorem C5_witness :
    (⟨{"a", "a/b", "t", "t/u"}, {("a", "a/b"), ("t", "t/u"), ("t/u", "a/b")}⟩ : Graph).edges =
      emptyG.edges ∪ (recordEdges "a/b" ["t/u"]).toFinset ∧
    (∀ t ∈ ["t/u"], (t, "a/b") ∈
      (⟨{"a", "a/b", "t", "t/u"}, {("a", "a/b"), ("t", "t/u"), ("t/u", "a/b")}⟩ : Graph).edges) ∧
    (∀ ident ∈ ["a/b", "t/u"], '/' ∈ ident.data →
      ∀ p ∈ accPrefixes ident, p ∈
        (⟨{"a", "a/b", "t", "t/u"}, {("a", "a/b"), ("t", "t/u"), ("t/u", "a/b")}⟩ : Graph).nodes) :=
  @C5_path_decomposition emptyG "a/b t/u"
    ⟨{"a", "a/b", "t", "t/u"}, {("a", "a/b"), ("t", "t/u"), ("t/u", "a/b")}⟩
    "a/b" ["t/u"] (by decide) (by decide) (by decide) (by decide) (by decide)

/-- C10: a record whose item has no '/' and no tags changes nothing — the
single-prefix chain adds no edge and no node — so if the item identifier is
not otherwise a node it can never appear in root_tags or in any successful
leaf query result. -/
theorem C10_no_slash_no_tags_noop {g : Graph} {line item : String}
    (hWF : WFg g)
    (hnc : pyStartsWith (pyStrip line) "#" = false) (hne : pyStrip line ≠ "")
    (hitem : item = pyStrip line)
    (hnospace : ' ' ∉ item.data) (hnoslash : '/' ∉ item.data) :
    parseLine g line = (g, none) ∧
    (item ∉ g.nodes →
      item ∉ getRootTags g ∧
      ∀ ts r, getLeafNodesTaggedBy g ts = .ok r → item ∉ r) := by
  subst hitem
  have hsp : pySplit ' ' (pyStrip line) = [pyStrip line] := by
    unfold pySplit
    rw [splitChar_of_not_mem hnospace]
    simp [mkData]
  have hsp2 : pySplit '/' (pyStrip line) = [pyStrip line] := by
    unfold pySplit
    rw [splitChar_of_not_mem hnoslash]
    simp [mkData]
  have hedges : lineEdges line = [] := by
    unfold lineEdges
    rw [if_neg (by simp [hnc, hne]), hsp]
    unfold recordEdges
    simp only [List.headI, List.tail_cons, List.flatMap_nil, List.append_nil]
    unfold chainPairs accPrefixes
    rw [hsp2]
    rfl
  constructor
  · rw [parseLine_eq, hedges]
    rfl
  · intro habs
    constructor
    · intro hroot
      exact habs (Finset.mem_of_mem_filter _ hroot)
    · intro ts r hok hmem
      exact habs (getLeaf_result_nodes hWF hok hmem)

/-- C10 witness: the line "doc" leaves the empty graph untouched and "doc"
is in no root-tag set. -/
theorem C10_witness :
    parseLine emptyG "doc" = (emptyG, none) ∧ "doc" ∉ getRootTags emptyG := by
  have h := @C10_no_slash_no_tags_noop emptyG "doc" "doc"
    (by decide) (by decide) (by decide) (by decide) (by decide) (by decide)
  exact ⟨h.1, (h.2 (by decide)).1⟩
